import Mathlib

set_option maxRecDepth 20000

/-!
Verification of `rename_files.py`: a batch renamer that prefixes document
filenames with a project identifier looked up from a CSV reference table via
a six-stage fuzzy-matching chain, truncating overlong names with a hash
suffix.

Python strings are modelled as `List Char` (Unicode code points); byte
lengths are UTF-8 byte counts computed per character.  The reference mapping
(a Python `dict` built by insertion) is modelled as an insertion-ordered
association list.  The MD5 digest used by `truncate_filename` is modelled as
a function parameter producing the 8-character hex digest; all properties
proved here depend only on its length, never on its value.  The Unicode NFKC
normalization performed by `unicodedata.normalize("NFKC", ...)` is modelled
by a partial table (`nfkcChar`, `composePair`) that covers the fullwidth
ASCII block, the ideographic space, and one canonical composition pair
(a + U+0301 -> U+00E1); outside this table it is the identity.  The model
agrees with the real NFKC on every concrete string used in the theorems
below, and the only universally quantified theorem about `normalize_text`'s
behaviour on its input repertoire (`normalize_text_idempotent_faithful`) is
restricted to `faithfulChar`, the character set on which the real pipeline
and the model provably coincide.
-/

/-- Number of bytes of the UTF-8 encoding of one character, as computed by
Python's `len(ch.encode("utf-8"))`. -/
def charBytes (c : Char) : Nat :=
  if c.toNat < 0x80 then 1
  else if c.toNat < 0x800 then 2
  else if c.toNat < 0x10000 then 3
  else 4

/-- UTF-8 byte length of a string, Python's `len(s.encode("utf-8"))`. -/
def strBytes (s : List Char) : Nat :=
  (s.map charBytes).sum

/-- `listIsPref a b` is true when `a` is a leading segment of `b`. -/
def listIsPref : List Char → List Char → Bool
  | [], _ => true
  | _ :: _, [] => false
  | a :: as, b :: bs => a == b && listIsPref as bs

/-- Python's `needle in haystack` for strings: `needle` occurs contiguously
inside `haystack` (the empty string occurs in every string). -/
def isSubstringOf (needle : List Char) : List Char → Bool
  | [] => listIsPref needle []
  | c :: rest => listIsPref needle (c :: rest) || isSubstringOf needle rest

/-- Partial model of the character-to-string part of NFKC: the fullwidth
ASCII block U+FF01..U+FF5E maps to U+0021..U+007E, the ideographic space
U+3000 maps to an ASCII space, every other character is untouched. -/
def nfkcChar (c : Char) : List Char :=
  if 0xFF01 ≤ c.toNat ∧ c.toNat ≤ 0xFF5E then [Char.ofNat (c.toNat - 0xFEE0)]
  else if c.toNat = 0x3000 then [' ']
  else [c]

/-- Partial model of canonical composition: LATIN SMALL LETTER A followed by
COMBINING ACUTE ACCENT (U+0301) composes to U+00E1; no other pair composes. -/
def composePair (a b : Char) : Option Char :=
  if a.toNat = 0x61 && b.toNat = 0x301 then some (Char.ofNat 0xE1) else none

/-- Left-to-right canonical-composition pass: the pending starter `a` is
combined with the next character whenever `composePair` allows it. -/
def composeRun (a : Char) : List Char → List Char
  | [] => [a]
  | b :: rest =>
    match composePair a b with
    | some c => composeRun c rest
    | none => a :: composeRun b rest

/-- Model of `unicodedata.normalize("NFKC", text)`: per-character
compatibility mapping followed by the composition pass. -/
def nfkc (t : List Char) : List Char :=
  match (t.map nfkcChar).flatten with
  | [] => []
  | c :: rest => composeRun c rest

/-- The eight bracket characters deleted by the regex
`re.sub(r"[【】\[\]（）\(\)]", "", ...)` in `normalize_text`. -/
def bracketChars : List Char := ['【', '】', '[', ']', '（', '）', '(', ')']

/-- Model of Python `str.lower` restricted to ASCII.  Inside
`normalize_text`, `lower` is only ever applied to NFKC output, where the
characters this model leaves untouched are exactly those the program's
inputs keep fixed. -/
def pyLower (c : Char) : Char :=
  if 0x41 ≤ c.toNat ∧ c.toNat ≤ 0x5A then Char.ofNat (c.toNat + 0x20) else c

/-- `normalize_text` from the source: NFKC normalization, then deletion of
the eight bracket characters, then lowercasing. -/
def normalize_text (t : List Char) : List Char :=
  ((nfkc t).filter (fun c => !(bracketChars.contains c))).map pyLower

/-- Separator characters of the regex `[_\s\-・]+` used by
`extract_keywords` (underscore, whitespace, hyphen, katakana middle dot).
U+3000 is included for Unicode `\s`; NFKC has already turned it into an
ASCII space by the time the regex runs. -/
def isSep (c : Char) : Bool :=
  c == '_' || c == '-' || c == '・' || c == ' ' || c == '\t' || c == '\n' ||
  c == '\r' || c.toNat == 0x0B || c.toNat == 0x0C || c.toNat == 0x3000

/-- Split on maximal runs of separator characters, keeping empty pieces at
the ends exactly as `re.split` does. -/
def splitSeps : List Char → List (List Char)
  | [] => [[]]
  | c :: t =>
    match splitSeps t with
    | [] => if isSep c then [[], []] else [[c]]
    | p :: ps => if isSep c then [] :: (p :: ps) else (c :: p) :: ps

/-- `extract_keywords` from the source: normalize, split on separator runs,
discard empty tokens.  Python's `set` is modelled by the token list; every
use below (`issubset`, truthiness) only depends on membership. -/
def extract_keywords (t : List Char) : List (List Char) :=
  (splitSeps (normalize_text t)).filter (fun w => !w.isEmpty)

/-- Keyword-set inclusion, Python's `set.issubset` (duplicates in the token
lists are irrelevant to membership). -/
def subsetKW (a b : List (List Char)) : Bool :=
  a.all (fun w => b.contains w)

/-- First value of the association list whose key satisfies `p`: one Python
`for`-loop over `mapping.items()` with an early `return`. -/
def lookupFirst (p : List Char → Bool) : List (List Char × List Char) → Option (List Char)
  | [] => none
  | (k, v) :: rest => if p k then some v else lookupFirst p rest

/-- The unknown sentinel `"不明"`. -/
def unknownMark : List Char := "不明".data

/-- `find_project_number` from the source: six lookup loops tried in order
(exact, normalized exact, fragment-in-key, key-in-fragment, normalized
substring either way, keyword subset guarded by a non-empty keyword set),
falling through to the sentinel. -/
def find_project_number (pj : List Char) (mapping : List (List Char × List Char)) : List Char :=
  match lookupFirst (fun k => k == pj) mapping with
  | some n => n
  | none =>
  match lookupFirst (fun k => normalize_text pj == normalize_text k) mapping with
  | some n => n
  | none =>
  match lookupFirst (fun k => isSubstringOf pj k) mapping with
  | some n => n
  | none =>
  match lookupFirst (fun k => isSubstringOf k pj) mapping with
  | some n => n
  | none =>
  match lookupFirst (fun k =>
      isSubstringOf (normalize_text pj) (normalize_text k) ||
      isSubstringOf (normalize_text k) (normalize_text pj)) mapping with
  | some n => n
  | none =>
  match (if (extract_keywords pj).isEmpty then none
         else lookupFirst (fun k => subsetKW (extract_keywords pj) (extract_keywords k)) mapping) with
  | some n => n
  | none => unknownMark

/-- Spec-side strategy list: the six match predicates of section 4.4 of the
specification, strictest first. -/
def strategyList : List (List Char → List Char → Bool) :=
  [fun pj k => k == pj,
   fun pj k => normalize_text pj == normalize_text k,
   fun pj k => isSubstringOf pj k,
   fun pj k => isSubstringOf k pj,
   fun pj k => isSubstringOf (normalize_text pj) (normalize_text k) ||
               isSubstringOf (normalize_text k) (normalize_text pj),
   fun pj k => !(extract_keywords pj).isEmpty &&
               subsetKW (extract_keywords pj) (extract_keywords k)]

/-- Spec-side matcher: return the identifier from the first strategy that
finds any match, taking the first matching entry in insertion order within
that strategy; the sentinel if every strategy fails. -/
def matchChain : List (List Char → List Char → Bool) → List Char → List (List Char × List Char) → List Char
  | [], _, _ => unknownMark
  | s :: rest, pj, m =>
    match lookupFirst (s pj) m with
    | some v => v
    | none => matchChain rest pj m

/-- Python `s.split(sep)` for a one-character separator: always at least one
piece, empty pieces kept. -/
def splitChar (sep : Char) : List Char → List (List Char)
  | [] => [[]]
  | c :: t =>
    match splitChar sep t with
    | [] => if c == sep then [[], []] else [[c]]
    | p :: ps => if c == sep then [] :: (p :: ps) else (c :: p) :: ps

/-- `extract_pj_name` from the source: the piece of the filename before the
first underscore (`filename.split("_")[0]`, with the vacuous
no-pieces fallback kept from the source). -/
def extract_pj_name (filename : List Char) : List Char :=
  match splitChar '_' filename with
  | [] => filename
  | p :: _ => p

/-- `os.path.splitext` for a bare filename (no directory separators): split
at the last dot, unless every character before that dot is itself a dot, in
which case there is no extension. -/
def pySplitext (s : List Char) : List Char × List Char :=
  match (s.reverse.findIdx? (fun c => c == '.')) with
  | none => (s, [])
  | some k =>
    let i := s.length - 1 - k
    if (s.take i).any (fun c => !(c == '.')) then (s.take i, s.drop i)
    else (s, [])

/-- The stripping loop of `truncate_filename`, run on the reversed base name
so that dropping the last character is structural.  The source's
`while len(base.encode("utf-8")) > available: base = base[:-1]` never exits
when the budget is negative and the base is already empty, which this model
records as `none`. -/
def stripRevLoop (avail : Int) : List Char → Option (List Char)
  | [] => if (0 : Int) ≤ avail then some [] else none
  | c :: rest =>
    if (strBytes (c :: rest) : Int) ≤ avail then some (c :: rest)
    else stripRevLoop avail rest

/-- The base-name byte budget computed inside `truncate_filename`:
`available_length = max_length - len(ext.encode("utf-8")) - len(file_hash) - 1`. -/
def truncAvail (md5hex : List Char → List Char) (filename : List Char) (maxLength : Nat) : Int :=
  (maxLength : Int) - (strBytes (pySplitext filename).2 : Int) - ((md5hex filename).length : Int) - 1

/-- `truncate_filename` from the source, parameterized by the digest
function `md5hex` standing for `hashlib.md5(...).hexdigest()[:8]`.  A
filename within the byte budget is returned unchanged; otherwise the base
name is stripped character by character until it fits `truncAvail` and the
result is reassembled as `base + "_" + hash + ext`.  `none` records the
source's non-terminating loop (negative budget). -/
def truncate_filename (md5hex : List Char → List Char) (filename : List Char)
    (maxLength : Nat) : Option (List Char) :=
  if strBytes filename ≤ maxLength then some filename
  else
    match stripRevLoop (truncAvail md5hex filename maxLength) (pySplitext filename).1.reverse with
    | some revBase => some (revBase.reverse ++ '_' :: (md5hex filename ++ (pySplitext filename).2))
    | none => none

/-- Python `str.strip` whitespace characters (the model covers the ASCII
whitespace and the ideographic space actually reachable from CSV text). -/
def isSpaceCh (c : Char) : Bool :=
  c == ' ' || c == '\t' || c == '\n' || c == '\r' || c.toNat == 0x0B ||
  c.toNat == 0x0C || c.toNat == 0x3000

/-- Python `str.strip()`: drop whitespace from both ends. -/
def pyStrip (s : List Char) : List Char :=
  (((s.dropWhile isSpaceCh).reverse).dropWhile isSpaceCh).reverse

/-- One CSV data row processed by the loader loop: rows with fewer than
three columns are ignored, identifier and name are stripped, and the entry
is appended only when both are non-empty and the name is not yet a key. -/
def insertRow (acc : List (List Char × List Char)) (row : List (List Char)) : List (List Char × List Char) :=
  if 3 ≤ row.length then
    let num := pyStrip (row.getD 0 [])
    let name := pyStrip (row.getD 2 [])
    if !num.isEmpty && !name.isEmpty && !(acc.any (fun p => p.1 == name)) then
      acc ++ [(name, num)]
    else acc
  else acc

/-- The loader loop over the data rows. -/
def loadRows (acc : List (List Char × List Char)) : List (List (List Char)) → List (List Char × List Char)
  | [] => acc
  | row :: rest => loadRows (insertRow acc row) rest

/-- `load_project_mapping` from the source, on an already-parsed CSV (a list
of rows of fields, BOM already stripped by the reader).  `next(reader)`
consumes the header row and raises on an empty file, recorded as `none`. -/
def load_project_mapping (rows : List (List (List Char))) : Option (List (List Char × List Char)) :=
  match rows with
  | [] => none
  | _ :: body => some (loadRows [] body)

/-- Constant stand-in digest used to instantiate `md5hex` in witnesses and
concrete evaluations: like the real truncated MD5 digest it always has
eight one-byte characters, which is all any theorem below uses. -/
def md0 : List Char → List Char := fun _ => "00000000".data

/-- A 212-byte filename with a 192-byte extension: 20 `a`s, a dot, 191
`x`s.  Its base-name budget under the default maximum is
`200 - 192 - 8 - 1 = -1`. -/
def exLongExt : List Char := List.replicate 20 'a' ++ '.' :: List.replicate 191 'x'

/-- A filename whose 203-byte composed form exceeds the default 200-byte
budget by exactly one 3-byte character: 66 hiragana `あ`, then `aa.md`. -/
def exOverByOne : List Char := List.replicate 66 'あ' ++ "aa.md".data

/-- The letter `a`, an opening parenthesis, and a COMBINING ACUTE ACCENT:
deleting the parenthesis puts the accent next to the `a`, which NFKC then
composes on the second normalization pass. -/
def exCombining : List Char := ['a', '(', Char.ofNat 0x301]

/-- Characters on which the embedded normalizer provably coincides with the
real pipeline (`unicodedata.normalize("NFKC", ...)` followed by
`str.lower`): printable ASCII and space, the fullwidth ASCII block, the
ideographic space, the corner brackets, the katakana middle dot and
prolonged sound mark, hiragana, katakana, and the CJK unified ideographs.
This set contains no combining marks, none of its characters has a
compatibility decomposition outside the fullwidth/ideographic-space table
(in particular it excludes the halfwidth voicing marks U+FF9E/U+FF9F, whose
NFKC images are combining marks), no two of its characters or their NFKC
images compose canonically, and only its ASCII letters are case-mapped, so
on strings over this set the real `normalize_text` computes exactly what
the model computes. -/
def faithfulChar (c : Char) : Bool :=
  (0x20 ≤ c.toNat && c.toNat ≤ 0x7E) ||
  (0xFF01 ≤ c.toNat && c.toNat ≤ 0xFF5E) ||
  c.toNat == 0x3000 || c.toNat == 0x3010 || c.toNat == 0x3011 ||
  c.toNat == 0x30FB || c.toNat == 0x30FC ||
  (0x3041 ≤ c.toNat && c.toNat ≤ 0x3096) ||
  (0x30A1 ≤ c.toNat && c.toNat ≤ 0x30FA) ||
  (0x4E00 ≤ c.toNat && c.toNat ≤ 0x9FFF)

/-! ## Helper lemmas -/

theorem toNat_ofNat_valid (n : Nat) (h1 : n < 0xD800) : (Char.ofNat n).toNat = n := by
  have h : n.isValidChar := Or.inl h1
  simp [Char.ofNat, h, Char.ofNatAux, Char.toNat, UInt32.toNat]

theorem char_eq_of_toNat_eq (a b : Char) (h : a.toNat = b.toNat) : a = b :=
  Char.eq_of_val_eq (UInt32.ext h)

theorem lookupFirst_congr (p q : List Char → Bool) (h : ∀ k, p k = q k) :
    ∀ m, lookupFirst p m = lookupFirst q m := by
  intro m
  induction m with
  | nil => rfl
  | cons kv rest ih =>
    cases kv with
    | mk k v => simp only [lookupFirst, h k, ih]

theorem lookupFirst_false (m : List (List Char × List Char)) :
    lookupFirst (fun _ => false) m = none := by
  induction m with
  | nil => rfl
  | cons kv rest ih =>
    cases kv with
    | mk k v => simp only [lookupFirst, ih, Bool.false_eq_true, if_false]

theorem lookupFirst_mem (p : List Char → Bool) (m : List (List Char × List Char))
    (v : List Char) (h : lookupFirst p m = some v) : ∃ q ∈ m, q.2 = v := by
  induction m with
  | nil => simp [lookupFirst] at h
  | cons kv rest ih =>
    cases kv with
    | mk k w =>
      by_cases hk : p k = true
      · simp only [lookupFirst, hk, if_true, Option.some.injEq] at h
        exact ⟨(k, w), List.mem_cons_self _ _, h⟩
      · simp only [lookupFirst, hk, if_false] at h
        obtain ⟨q, hq, hv⟩ := ih h
        exact ⟨q, List.mem_cons_of_mem _ hq, hv⟩

theorem stage6_guard_eq (pj : List Char) (m : List (List Char × List Char)) :
    (if (extract_keywords pj).isEmpty then none
     else lookupFirst (fun k => subsetKW (extract_keywords pj) (extract_keywords k)) m) =
    lookupFirst (fun k => !(extract_keywords pj).isEmpty &&
      subsetKW (extract_keywords pj) (extract_keywords k)) m := by
  cases h : (extract_keywords pj).isEmpty with
  | false => simp [h]
  | true => simp [h, lookupFirst_false]

theorem isSubstringOf_nil_left (k : List Char) : isSubstringOf [] k = true := by
  cases k with
  | nil => rfl
  | cons c rest => simp [isSubstringOf, listIsPref]

theorem splitChar_ne_nil (sep : Char) (l : List Char) : splitChar sep l ≠ [] := by
  induction l with
  | nil => simp [splitChar]
  | cons c t ih =>
    simp only [splitChar]
    cases h : splitChar sep t with
    | nil => split <;> split <;> simp
    | cons p ps => split <;> split <;> simp

/-! ## C1: strategy order of find_project_number -/

/-- C1: `find_project_number` runs exactly the six strategies of the spec in
the fixed order, returning the identifier of the first entry, in insertion
order, matched by the earliest succeeding strategy; in particular, in a
mapping where the fragment is a keyword-subset match for the first entry and
an exact match for the second, the exact match wins. -/
theorem find_project_number_strategy_order :
    (∀ pj m, find_project_number pj m = matchChain strategyList pj m) ∧
    find_project_number "alpha beta".data
      [("alpha-beta".data, "101".data), ("alpha beta".data, "202".data)] = "202".data ∧
    subsetKW (extract_keywords "alpha beta".data) (extract_keywords "alpha-beta".data) = true := by
  refine ⟨fun pj m => ?_, by decide, by decide⟩
  simp only [find_project_number, matchChain, strategyList, stage6_guard_eq]

/-! ## C5: short filenames are returned unchanged -/

/-- C5: a filename whose UTF-8 byte length is at or under the maximum is
returned unchanged by `truncate_filename` — no hash suffix, no characters
removed. -/
theorem truncate_under_max (md5hex : List Char → List Char) (f : List Char) (m : Nat)
    (h : strBytes f ≤ m) : truncate_filename md5hex f m = some f := by
  simp [truncate_filename, h]

/-- Witness for C5 at a concrete input. -/
theorem truncate_under_max_witness :
    strBytes "report.md".data ≤ 200 ∧ truncate_filename md0 "report.md".data 200 = some "report.md".data :=
  ⟨by decide, truncate_under_max md0 "report.md".data 200 (by decide)⟩

/-! ## C2: the byte-length guarantee fails on a long extension -/

/-- C2: at `exLongExt` (212 bytes, 192-byte extension) the base-name budget
is `-1`, and the source's stripping loop never terminates — recorded as
`none` by the model — so `truncate_filename` does not return any string of
at most 200 bytes there. -/
theorem truncate_diverges_on_long_ext :
    strBytes exLongExt = 212 ∧
    strBytes (pySplitext exLongExt).2 = 192 ∧
    truncAvail md0 exLongExt 200 = -1 ∧
    truncate_filename md0 exLongExt 200 = none := by
  refine ⟨by decide, by decide, by decide, by decide⟩

/-! ## C6: normalize_text is not idempotent -/

/-- C6 counterexample: on `a` `(` U+0301 the first pass only deletes the
parenthesis, while the second pass composes the now-adjacent `a` and
combining accent into U+00E1, so applying `normalize_text` twice differs
from applying it once. -/
theorem normalize_text_not_idempotent :
    normalize_text (normalize_text exCombining) ≠ normalize_text exCombining := by
  decide

/-! ## C8: empty fragment -/

/-- C8 counterexample: a non-empty mapping whose stored identifier is the
sentinel string itself makes `find_project_number` of the empty fragment
return `不明`, so the claim's "never returns the unknown sentinel" fails as
stated. -/
theorem empty_fragment_returns_unknown_value :
    find_project_number [] [(['k'], unknownMark)] = unknownMark ∧ unknownMark ≠ [] := by
  refine ⟨by decide, by decide⟩

/-- C8 amended: for every non-empty mapping the empty fragment matches some
entry — the forward-substring stage accepts every key since the empty string
is a substring of anything — so the returned string is always a stored
identifier (it can be `不明` only when `不明` is itself stored); and a
filename beginning with an underscore yields the empty fragment. -/
theorem empty_fragment_matches_entry (m : List (List Char × List Char)) (hm : m ≠ []) :
    (∃ q ∈ m, find_project_number [] m = q.2) ∧
    (∀ k, isSubstringOf [] k = true) ∧
    (∀ rest, extract_pj_name ('_' :: rest) = []) := by
  refine ⟨?_, isSubstringOf_nil_left, ?_⟩
  · cases m with
    | nil => exact absurd rfl hm
    | cons kv rest =>
      cases kv with
      | mk k v =>
        simp only [find_project_number]
        cases h1 : lookupFirst (fun k => k == ([] : List Char)) ((k, v) :: rest) with
        | some n =>
          obtain ⟨q, hq, hv⟩ := lookupFirst_mem _ _ _ h1
          exact ⟨q, hq, hv.symm⟩
        | none =>
          cases h2 : lookupFirst
              (fun k => normalize_text [] == normalize_text k) ((k, v) :: rest) with
          | some n =>
            obtain ⟨q, hq, hv⟩ := lookupFirst_mem _ _ _ h2
            exact ⟨q, hq, hv.symm⟩
          | none =>
            have h3 : lookupFirst (fun k => isSubstringOf [] k) ((k, v) :: rest) = some v := by
              simp [lookupFirst, isSubstringOf_nil_left k]
            simp only [h3]
            exact ⟨(k, v), List.mem_cons_self _ _, rfl⟩
  · intro rest
    simp only [extract_pj_name, splitChar]
    cases h : splitChar '_' rest with
    | nil => exact absurd h (splitChar_ne_nil '_' rest)
    | cons p ps => simp

/-- Witness for C8 amended at a concrete mapping. -/
theorem empty_fragment_matches_entry_witness :
    ([(['k'], ['7'])] : List (List Char × List Char)) ≠ [] ∧
    (∃ q ∈ ([(['k'], ['7'])] : List (List Char × List Char)),
      find_project_number [] [(['k'], ['7'])] = q.2) :=
  ⟨by decide, (empty_fragment_matches_entry [(['k'], ['7'])] (by decide)).1⟩

/-! ## Byte-length and stripping-loop lemmas -/

theorem strBytes_append (a b : List Char) : strBytes (a ++ b) = strBytes a + strBytes b := by
  simp [strBytes, List.map_append, List.sum_append]

theorem strBytes_reverse (l : List Char) : strBytes l.reverse = strBytes l := by
  simp [strBytes, List.map_reverse, List.sum_reverse]

theorem strBytes_cons (c : Char) (l : List Char) :
    strBytes (c :: l) = charBytes c + strBytes l := by
  simp [strBytes]

theorem charBytes_pos (c : Char) : 0 < charBytes c := by
  unfold charBytes
  split
  · omega
  · split
    · omega
    · split <;> omega

theorem stripRevLoop_some_le (avail : Int) (l r : List Char)
    (h : stripRevLoop avail l = some r) : (strBytes r : Int) ≤ avail := by
  induction l with
  | nil =>
    simp only [stripRevLoop] at h
    by_cases h0 : (0 : Int) ≤ avail
    · simp only [h0, if_true, Option.some.injEq] at h
      subst h
      simpa [strBytes] using h0
    · simp [h0] at h
  | cons c rest ih =>
    simp only [stripRevLoop] at h
    by_cases hle : (strBytes (c :: rest) : Int) ≤ avail
    · simp only [hle, if_true, Option.some.injEq] at h
      subst h
      exact hle
    · simp only [hle, if_false] at h
      exact ih h

theorem stripRevLoop_isSome (avail : Int) (h0 : 0 ≤ avail) (l : List Char) :
    (stripRevLoop avail l).isSome = true := by
  induction l with
  | nil => simp [stripRevLoop, h0]
  | cons c rest ih =>
    simp only [stripRevLoop]
    split
    · rfl
    · exact ih

theorem stripRevLoop_stop (avail : Int) (l : List Char)
    (h : (strBytes l : Int) ≤ avail) : stripRevLoop avail l = some l := by
  cases l with
  | nil => simpa [stripRevLoop, strBytes] using by simpa [strBytes] using h
  | cons c rest => simp [stripRevLoop, h]

theorem listIsPref_refl (l : List Char) : listIsPref l l = true := by
  induction l with
  | nil => rfl
  | cons c t ih => simp [listIsPref, ih]

theorem listIsPref_extend (a b : List Char) (c : Char)
    (h : listIsPref a b = true) : listIsPref a (b ++ [c]) = true := by
  induction a generalizing b with
  | nil => rfl
  | cons x xs ih =>
    cases b with
    | nil => simp [listIsPref] at h
    | cons y ys =>
      simp only [listIsPref, Bool.and_eq_true, beq_iff_eq] at h
      simp only [List.cons_append, listIsPref, Bool.and_eq_true, beq_iff_eq]
      exact ⟨h.1, ih ys h.2⟩

theorem stripRevLoop_suffix (avail : Int) (l r : List Char)
    (h : stripRevLoop avail l = some r) : listIsPref r.reverse l.reverse = true := by
  induction l with
  | nil =>
    simp only [stripRevLoop] at h
    by_cases h0 : (0 : Int) ≤ avail
    · simp only [h0, if_true, Option.some.injEq] at h
      subst h
      exact listIsPref_refl _
    · simp [h0] at h
  | cons c rest ih =>
    simp only [stripRevLoop] at h
    by_cases hle : (strBytes (c :: rest) : Int) ≤ avail
    · simp only [hle, if_true, Option.some.injEq] at h
      subst h
      exact listIsPref_refl _
    · simp only [hle, if_false] at h
      have := ih h
      simpa [List.reverse_cons] using listIsPref_extend _ _ c this

/-! ## C3: truncation removes whole characters -/

/-- C3 counterexample: `exOverByOne` is 203 bytes, exceeding the 200-byte
budget by exactly one 3-byte character, yet the result has 74 characters
where the 71-character input would have 70 after removing exactly one
character: the loop removes six characters (two ASCII, four 3-byte) and
appends the 9-character hash suffix. -/
theorem truncate_not_exactly_one_char :
    strBytes exOverByOne = 203 ∧ charBytes 'あ' = 3 ∧ exOverByOne.length = 71 ∧
    (truncate_filename md0 exOverByOne 200).map List.length = some 74 := by
  refine ⟨by decide, by decide, by decide, by decide⟩

/-- C3 amended: the stripping loop removes whole characters from the end of
the base name, so the retained base is always a character-prefix of the
original base — no multi-byte character is ever split — and the result is
that prefix followed by the underscore, the hash, and the extension; the
number of characters removed is whatever makes the base fit its budget, not
exactly one. -/
theorem truncate_keeps_whole_chars (md5hex : List Char → List Char) (f : List Char)
    (m : Nat) (h : m < strBytes f) (b : List Char)
    (hb : stripRevLoop (truncAvail md5hex f m) (pySplitext f).1.reverse = some b) :
    listIsPref b.reverse (pySplitext f).1 = true ∧
    truncate_filename md5hex f m =
      some (b.reverse ++ '_' :: (md5hex f ++ (pySplitext f).2)) ∧
    (strBytes b.reverse : Int) ≤ truncAvail md5hex f m := by
  refine ⟨?_, ?_, ?_⟩
  · have := stripRevLoop_suffix _ _ _ hb
    simpa using this
  · have hnle : ¬ strBytes f ≤ m := by omega
    simp [truncate_filename, hnle, hb]
  · rw [strBytes_reverse]
    exact stripRevLoop_some_le _ _ _ hb

/-- Witness for C3 amended: on `exOverByOne` the loop keeps the first 62
characters of the base. -/
theorem truncate_keeps_whole_chars_witness :
    200 < strBytes exOverByOne ∧
    listIsPref (List.replicate 62 'あ').reverse (pySplitext exOverByOne).1 = true ∧
    truncate_filename md0 exOverByOne 200 =
      some ((List.replicate 62 'あ').reverse ++ '_' :: (md0 exOverByOne ++ (pySplitext exOverByOne).2)) :=
  ⟨by decide,
   (truncate_keeps_whole_chars md0 exOverByOne 200 (by decide) (List.replicate 62 'あ') (by decide)).1,
   (truncate_keeps_whole_chars md0 exOverByOne 200 (by decide) (List.replicate 62 'あ') (by decide)).2.1⟩

/-! ## C4: truncation is idempotent -/

theorem strBytes_of_single (l : List Char) (hb : ∀ c ∈ l, charBytes c = 1) :
    strBytes l = l.length := by
  induction l with
  | nil => rfl
  | cons c t ih =>
    rw [strBytes_cons, hb c (List.mem_cons_self _ _), ih (fun d hd => hb d (List.mem_cons_of_mem _ hd))]
    simp [List.length_cons]
    omega

/-- C4: truncating an already-truncated filename changes nothing: in
Kleisli form, composing `truncate_filename` with itself equals one
application (both sides inherit the source's divergence on negative
budgets).  The digest hypotheses say the hash has eight one-byte
characters, as the real 8-hex-character MD5 digest does. -/
theorem truncate_idempotent (md5hex : List Char → List Char)
    (hlen : ∀ s, (md5hex s).length = 8)
    (hone : ∀ s, ∀ c ∈ md5hex s, charBytes c = 1)
    (f : List Char) (m : Nat) :
    (truncate_filename md5hex f m).bind (fun g => truncate_filename md5hex g m) =
      truncate_filename md5hex f m := by
  by_cases h : strBytes f ≤ m
  · simp [truncate_filename, h]
  · cases hs : stripRevLoop (truncAvail md5hex f m) (pySplitext f).1.reverse with
    | none => simp [truncate_filename, h, hs]
    | some b =>
      have hble : (strBytes b : Int) ≤ truncAvail md5hex f m :=
        stripRevLoop_some_le _ _ _ hs
      have hhash : strBytes (md5hex f) = 8 := by
        rw [strBytes_of_single _ (hone f), hlen f]
      have hg : strBytes (b.reverse ++ '_' :: (md5hex f ++ (pySplitext f).2)) ≤ m := by
        rw [strBytes_append, strBytes_cons, strBytes_append, strBytes_reverse, hhash]
        have h1 : charBytes '_' = 1 := by decide
        rw [h1]
        simp only [truncAvail, hlen f] at hble
        omega
      simp [truncate_filename, h, hs, hg]

/-- Witness for C4 at a concrete over-long input and the stand-in digest. -/
theorem truncate_idempotent_witness :
    (truncate_filename md0 exOverByOne 200).bind (fun g => truncate_filename md0 g 200) =
      truncate_filename md0 exOverByOne 200 :=
  truncate_idempotent md0 (fun _ => rfl)
    (fun _ => by
      show ∀ c ∈ "00000000".data, charBytes c = 1
      decide)
    exOverByOne 200

/-! ## C9: termination for extensions within the reserved budget -/

/-- C9: whenever the extension's byte length plus the nine bytes reserved
for the underscore and hash fits in the maximum, the stripping loop's budget
is non-negative, each iteration strictly shortens the base, and
`truncate_filename` returns a result. -/
theorem truncate_terminates (md5hex : List Char → List Char)
    (hlen : ∀ s, (md5hex s).length = 8)
    (f : List Char) (m : Nat)
    (hext : strBytes (pySplitext f).2 + 9 ≤ m) :
    (truncate_filename md5hex f m).isSome = true := by
  by_cases h : strBytes f ≤ m
  · simp [truncate_filename, h]
  · have h0 : (0 : Int) ≤ truncAvail md5hex f m := by
      simp only [truncAvail, hlen f]
      omega
    cases hs : stripRevLoop (truncAvail md5hex f m) (pySplitext f).1.reverse with
    | none =>
      have := stripRevLoop_isSome _ h0 (pySplitext f).1.reverse
      rw [hs] at this
      simp at this
    | some b => simp [truncate_filename, h, hs]

/-- Witness for C9: a 300-byte filename with a short extension terminates. -/
theorem truncate_terminates_witness :
    strBytes (pySplitext (List.replicate 297 'a' ++ ".md".data)).2 + 9 ≤ 200 ∧
    (truncate_filename md0 (List.replicate 297 'a' ++ ".md".data) 200).isSome = true :=
  ⟨by decide, truncate_terminates md0 (fun _ => rfl) (List.replicate 297 'a' ++ ".md".data) 200 (by decide)⟩

/-! ## Character-level lemmas for normalize_text -/

theorem nfkcChar_eq_self (c : Char) (h1 : ¬(0xFF01 ≤ c.toNat ∧ c.toNat ≤ 0xFF5E))
    (h2 : c.toNat ≠ 0x3000) : nfkcChar c = [c] := by
  simp [nfkcChar, h1, h2]

theorem nfkcChar_chars (c : Char) (hc : c.toNat ≠ 0x301) :
    ∀ d ∈ nfkcChar c,
      d.toNat ≠ 0x301 ∧ ¬(0xFF01 ≤ d.toNat ∧ d.toNat ≤ 0xFF5E) ∧ d.toNat ≠ 0x3000 := by
  intro d hd
  by_cases h1 : 0xFF01 ≤ c.toNat ∧ c.toNat ≤ 0xFF5E
  · have hrw : nfkcChar c = [Char.ofNat (c.toNat - 0xFEE0)] := by
      unfold nfkcChar
      rw [if_pos h1]
    rw [hrw, List.mem_singleton] at hd
    have htn : d.toNat = c.toNat - 0xFEE0 := by
      rw [hd]
      exact toNat_ofNat_valid _ (by omega)
    omega
  · by_cases h2 : c.toNat = 0x3000
    · have hrw : nfkcChar c = [' '] := by
        unfold nfkcChar
        rw [if_neg h1, if_pos h2]
      rw [hrw, List.mem_singleton] at hd
      have htn : d.toNat = 0x20 := by
        rw [hd]
        rfl
      omega
    · have hrw : nfkcChar c = [c] := by
        unfold nfkcChar
        rw [if_neg h1, if_neg h2]
      rw [hrw, List.mem_singleton] at hd
      rw [hd]
      exact ⟨hc, h1, h2⟩

theorem composePair_none (a b : Char) (h : b.toNat ≠ 0x301) : composePair a b = none := by
  simp [composePair, h]

theorem composeRun_id (a : Char) (l : List Char) (h : ∀ c ∈ l, c.toNat ≠ 0x301) :
    composeRun a l = a :: l := by
  induction l generalizing a with
  | nil => rfl
  | cons b rest ih =>
    have hb : composePair a b = none := composePair_none a b (h b (List.mem_cons_self _ _))
    simp only [composeRun, hb]
    rw [ih b (fun c hc => h c (List.mem_cons_of_mem _ hc))]

theorem flatten_map_nfkcChar (l : List Char) (h : ∀ c ∈ l, nfkcChar c = [c]) :
    (l.map nfkcChar).flatten = l := by
  induction l with
  | nil => rfl
  | cons c t ih =>
    simp only [List.map_cons, List.flatten_cons, h c (List.mem_cons_self _ _)]
    rw [ih (fun d hd => h d (List.mem_cons_of_mem _ hd))]
    rfl

theorem nfkc_of_stable (l : List Char) (h1 : ∀ c ∈ l, nfkcChar c = [c])
    (h2 : ∀ c ∈ l, c.toNat ≠ 0x301) : nfkc l = l := by
  have hf := flatten_map_nfkcChar l h1
  unfold nfkc
  rw [hf]
  cases l with
  | nil => rfl
  | cons c rest => exact composeRun_id c rest (fun d hd => h2 d (List.mem_cons_of_mem _ hd))

theorem pyLower_spec (c : Char) :
    (0x41 ≤ c.toNat ∧ c.toNat ≤ 0x5A ∧ (pyLower c).toNat = c.toNat + 0x20) ∨
    (¬(0x41 ≤ c.toNat ∧ c.toNat ≤ 0x5A) ∧ pyLower c = c) := by
  by_cases h : 0x41 ≤ c.toNat ∧ c.toNat ≤ 0x5A
  · left
    refine ⟨h.1, h.2, ?_⟩
    simp only [pyLower, h, if_true]
    exact toNat_ofNat_valid _ (by omega)
  · right
    exact ⟨h, by simp [pyLower, h]⟩

theorem bracket_contains_false (d : Char)
    (h : d.toNat ≠ 0x3010 ∧ d.toNat ≠ 0x3011 ∧ d.toNat ≠ 0x5B ∧ d.toNat ≠ 0x5D ∧
         d.toNat ≠ 0xFF08 ∧ d.toNat ≠ 0xFF09 ∧ d.toNat ≠ 0x28 ∧ d.toNat ≠ 0x29) :
    bracketChars.contains d = false := by
  rw [Bool.eq_false_iff]
  intro hc
  have hm : d ∈ bracketChars := by simpa using hc
  simp only [bracketChars, List.mem_cons, List.not_mem_nil, or_false] at hm
  rcases hm with rfl | rfl | rfl | rfl | rfl | rfl | rfl | rfl <;> revert h <;> decide

theorem normalize_chars (t : List Char) (ht : ∀ c ∈ t, c.toNat ≠ 0x301) :
    ∀ d ∈ normalize_text t,
      nfkcChar d = [d] ∧ d.toNat ≠ 0x301 ∧ pyLower d = d ∧
      bracketChars.contains d = false := by
  have hflat : ∀ d ∈ (t.map nfkcChar).flatten,
      d.toNat ≠ 0x301 ∧ ¬(0xFF01 ≤ d.toNat ∧ d.toNat ≤ 0xFF5E) ∧ d.toNat ≠ 0x3000 := by
    intro d hd
    rw [List.mem_flatten] at hd
    obtain ⟨l, hl, hdl⟩ := hd
    rw [List.mem_map] at hl
    obtain ⟨c, hc, rfl⟩ := hl
    exact nfkcChar_chars c (ht c hc) d hdl
  have hnfkc : nfkc t = (t.map nfkcChar).flatten := by
    unfold nfkc
    cases hf : (t.map nfkcChar).flatten with
    | nil => rfl
    | cons c rest =>
      exact composeRun_id c rest
        (fun d hd => (hflat d (by rw [hf]; exact List.mem_cons_of_mem _ hd)).1)
  intro d hd
  simp only [normalize_text, List.mem_map] at hd
  obtain ⟨e, he, rfl⟩ := hd
  rw [List.mem_filter] at he
  obtain ⟨hemem, heb⟩ := he
  rw [hnfkc] at hemem
  have hP := hflat e hemem
  have hebf : bracketChars.contains e = false := by
    simpa using heb
  rcases pyLower_spec e with ⟨h41, h5A, htn⟩ | ⟨hnot, heq⟩
  · have hd1 : ¬(0xFF01 ≤ (pyLower e).toNat ∧ (pyLower e).toNat ≤ 0xFF5E) := by omega
    have hd2 : (pyLower e).toNat ≠ 0x3000 := by omega
    refine ⟨nfkcChar_eq_self _ hd1 hd2, by omega, ?_, ?_⟩
    · rcases pyLower_spec (pyLower e) with ⟨hh, _, _⟩ | ⟨_, hfix⟩
      · omega
      · exact hfix
    · exact bracket_contains_false _ (by omega)
  · rw [heq]
    exact ⟨nfkcChar_eq_self _ hP.2.1 hP.2.2, hP.1, heq, hebf⟩

theorem normalize_of_stable (l : List Char)
    (h : ∀ d ∈ l, nfkcChar d = [d] ∧ d.toNat ≠ 0x301 ∧ pyLower d = d ∧
         bracketChars.contains d = false) :
    normalize_text l = l := by
  unfold normalize_text
  rw [nfkc_of_stable l (fun d hd => (h d hd).1) (fun d hd => (h d hd).2.1)]
  rw [List.filter_eq_self.mpr (fun d hd => by simp only [(h d hd).2.2.2, Bool.not_false])]
  rw [List.map_congr_left (fun d hd => (h d hd).2.2.1)]
  exact List.map_id l

/-! ## C6: idempotence of normalize_text on combining-free input -/

/-- C6 amended: `normalize_text` is idempotent on every string drawn from
the `faithfulChar` repertoire, on which the embedded normalizer coincides
with the real pipeline.  In general idempotence fails: deleting a bracket
can juxtapose a base letter with a combining mark — present in the input
(`a` `(` U+0301, or equally U+0300) or produced by NFKC's own compatibility
mapping (halfwidth `ｶ` `(` `ﾞ`, whose voicing mark becomes the combining
U+3099) — and the pair composes only on the second application;
`normalize_text_not_idempotent` exhibits the first shape.  The hypothesis
excludes every such character: `faithfulChar` admits no combining mark and
no character whose NFKC image contains one. -/
theorem normalize_text_idempotent_faithful (t : List Char)
    (ht : ∀ c ∈ t, faithfulChar c = true) :
    normalize_text (normalize_text t) = normalize_text t :=
  normalize_of_stable _ (normalize_chars t (fun c hc => by
    have hf := ht c hc
    simp only [faithfulChar, Bool.or_eq_true, Bool.and_eq_true,
      decide_eq_true_eq, beq_iff_eq] at hf
    omega))

/-- Witness for C6 amended on a fullwidth, bracketed, mixed-case input with
CJK ideographs. -/
theorem normalize_text_idempotent_faithful_witness :
    (∀ c ∈ "Ｔｅｓｔ（Ｘ）[A]案件".data, faithfulChar c = true) ∧
    normalize_text (normalize_text "Ｔｅｓｔ（Ｘ）[A]案件".data) =
      normalize_text "Ｔｅｓｔ（Ｘ）[A]案件".data :=
  ⟨by decide, normalize_text_idempotent_faithful "Ｔｅｓｔ（Ｘ）[A]案件".data (by decide)⟩

/-! ## Whitespace-stripping lemmas -/

theorem dropWhile_head_not (p : Char → Bool) (l : List Char) :
    l.dropWhile p = [] ∨ ∃ c t, l.dropWhile p = c :: t ∧ p c = false := by
  induction l with
  | nil => exact Or.inl rfl
  | cons a t ih =>
    by_cases ha : p a = true
    · rw [List.dropWhile_cons_of_pos ha]
      exact ih
    · right
      exact ⟨a, t, List.dropWhile_cons_of_neg ha, by simpa using ha⟩

theorem dropWhile_getLast? (p : Char → Bool) (l : List Char) :
    l.dropWhile p = [] ∨ (l.dropWhile p).getLast? = l.getLast? := by
  induction l with
  | nil => exact Or.inl rfl
  | cons a t ih =>
    by_cases ha : p a = true
    · rw [List.dropWhile_cons_of_pos ha]
      by_cases hnil : t.dropWhile p = []
      · exact Or.inl hnil
      · right
        rcases ih with h | h
        · exact absurd h hnil
        · rw [h]
          cases t with
          | nil => simp [List.dropWhile_nil] at hnil
          | cons b u => exact List.getLast?_cons_cons.symm
    · right
      rw [List.dropWhile_cons_of_neg ha]

theorem pyStrip_of_ends (l : List Char)
    (h1 : ∀ c, l.head? = some c → isSpaceCh c = false)
    (h2 : ∀ c, l.getLast? = some c → isSpaceCh c = false) :
    pyStrip l = l := by
  have hd : l.dropWhile isSpaceCh = l := by
    cases l with
    | nil => rfl
    | cons a t => exact List.dropWhile_cons_of_neg (by simp [h1 a rfl])
  have hd2 : l.reverse.dropWhile isSpaceCh = l.reverse := by
    cases hr : l.reverse with
    | nil => rfl
    | cons a t =>
      have hla : l.getLast? = some a := by
        rw [← List.head?_reverse, hr]
        rfl
      exact List.dropWhile_cons_of_neg (by simp [h2 a hla])
  unfold pyStrip
  rw [hd, hd2, List.reverse_reverse]

theorem pyStrip_head_not (l : List Char) :
    ∀ c, (pyStrip l).head? = some c → isSpaceCh c = false := by
  intro c hc
  unfold pyStrip at hc
  rw [List.head?_reverse] at hc
  rcases dropWhile_getLast? isSpaceCh (l.dropWhile isSpaceCh).reverse with h | h
  · rw [h] at hc
    simp at hc
  · rw [h, List.getLast?_reverse] at hc
    rcases dropWhile_head_not isSpaceCh l with h0 | ⟨c0, t0, h0, hp0⟩
    · rw [h0] at hc
      simp at hc
    · rw [h0] at hc
      simp only [List.head?_cons, Option.some.injEq] at hc
      rw [← hc]
      exact hp0

theorem pyStrip_last_not (l : List Char) :
    ∀ c, (pyStrip l).getLast? = some c → isSpaceCh c = false := by
  intro c hc
  unfold pyStrip at hc
  rw [List.getLast?_reverse] at hc
  rcases dropWhile_head_not isSpaceCh (l.dropWhile isSpaceCh).reverse with h | ⟨c0, t0, h0, hp0⟩
  · rw [h] at hc
    simp at hc
  · rw [h0] at hc
    simp only [List.head?_cons, Option.some.injEq] at hc
    rw [← hc]
    exact hp0

theorem pyStrip_stable (l : List Char) : pyStrip (pyStrip l) = pyStrip l :=
  pyStrip_of_ends _ (pyStrip_head_not l) (pyStrip_last_not l)

theorem pyStrip_all_space (l : List Char) (h : ∀ c ∈ l, isSpaceCh c = true) :
    pyStrip l = [] := by
  unfold pyStrip
  rw [List.dropWhile_eq_nil_iff.mpr h]
  rfl

/-! ## Loader invariants -/

theorem loadRows_inv (P : List (List Char × List Char) → Prop)
    (hstep : ∀ acc row, P acc → P (insertRow acc row)) :
    ∀ rows acc, P acc → P (loadRows acc rows) := by
  intro rows
  induction rows with
  | nil =>
    intro acc h
    exact h
  | cons row rest ih =>
    intro acc h
    exact ih _ (hstep acc row h)

theorem insertRow_cases (acc : List (List Char × List Char)) (row : List (List Char)) :
    insertRow acc row = acc ∨
    (3 ≤ row.length ∧
     (pyStrip (row.getD 0 [])).isEmpty = false ∧
     (pyStrip (row.getD 2 [])).isEmpty = false ∧
     acc.any (fun p => p.1 == pyStrip (row.getD 2 [])) = false ∧
     insertRow acc row = acc ++ [(pyStrip (row.getD 2 []), pyStrip (row.getD 0 []))]) := by
  by_cases hlen : 3 ≤ row.length
  · by_cases hg : (!(pyStrip (row.getD 0 [])).isEmpty &&
        (!(pyStrip (row.getD 2 [])).isEmpty &&
         !(acc.any (fun p => p.1 == pyStrip (row.getD 2 []))))) = true
    · right
      rw [Bool.and_eq_true, Bool.and_eq_true] at hg
      obtain ⟨hg1, hg2, hg3⟩ := hg
      refine ⟨hlen, by simpa using hg1, by simpa using hg2, by simpa using hg3, ?_⟩
      simp only [insertRow, hlen, if_true]
      rw [if_pos]
      simpa [Bool.and_assoc] using And.intro hg1 (And.intro hg2 hg3)
    · left
      simp only [insertRow, hlen, if_true]
      rw [if_neg]
      intro hcontra
      exact hg (by simpa [Bool.and_assoc] using hcontra)
  · left
    simp [insertRow, hlen]

/-! ## C7: loader contract -/

/-- C7: `load_project_mapping` skips rows with fewer than three columns,
rows with an empty identifier or name, and later rows whose name is already
a key (first-seen wins, so keys are duplicate-free), and every stored key
and identifier is non-empty. -/
theorem load_project_mapping_contract (rows : List (List (List Char)))
    (m : List (List Char × List Char)) (hm : load_project_mapping rows = some m) :
    (∀ p ∈ m, p.1 ≠ [] ∧ p.2 ≠ []) ∧
    (m.map Prod.fst).Nodup ∧
    (∀ acc row, row.length < 3 → insertRow acc row = acc) ∧
    (∀ acc row, (pyStrip (row.getD 0 [])).isEmpty = true ∨
      (pyStrip (row.getD 2 [])).isEmpty = true → insertRow acc row = acc) ∧
    (∀ acc row, acc.any (fun p => p.1 == pyStrip (row.getD 2 [])) = true →
      insertRow acc row = acc) := by
  have hinv : (∀ p ∈ m, p.1 ≠ [] ∧ p.2 ≠ []) ∧ (m.map Prod.fst).Nodup := by
    cases rows with
    | nil => simp [load_project_mapping] at hm
    | cons header body =>
      simp only [load_project_mapping, Option.some.injEq] at hm
      subst hm
      refine loadRows_inv
        (fun acc => (∀ p ∈ acc, p.1 ≠ [] ∧ p.2 ≠ []) ∧ (acc.map Prod.fst).Nodup)
        ?_ body [] ⟨by simp, by simp⟩
      intro acc row hP
      rcases insertRow_cases acc row with he | ⟨_, h1, h2, h3, he⟩
      · rw [he]
        exact hP
      · rw [he]
        constructor
        · intro p hp
          rcases List.mem_append.mp hp with hp | hp
          · exact hP.1 p hp
          · rw [List.mem_singleton] at hp
            subst hp
            constructor
            · intro hn
              have hn2 : pyStrip (row.getD 2 []) = [] := hn
              rw [hn2] at h2
              simp at h2
            · intro hn
              have hn1 : pyStrip (row.getD 0 []) = [] := hn
              rw [hn1] at h1
              simp at h1
        · rw [List.map_append, List.nodup_append]
          refine ⟨hP.2, List.nodup_singleton _, ?_⟩
          simp only [List.map_cons, List.map_nil]
          rw [List.disjoint_singleton]
          intro hmem
          rw [List.mem_map] at hmem
          obtain ⟨p, hp, hq⟩ := hmem
          have := List.any_eq_false.mp h3 p hp
          simp only [beq_iff_eq] at this
          exact this hq
  refine ⟨hinv.1, hinv.2, ?_, ?_, ?_⟩
  · intro acc row h
    simp [insertRow, show ¬ 3 ≤ row.length by omega]
  · intro acc row h
    rcases insertRow_cases acc row with he | ⟨_, h1, h2, _, _⟩
    · exact he
    · rcases h with h | h
      · rw [h] at h1
        simp at h1
      · rw [h] at h2
        simp at h2
  · intro acc row h
    rcases insertRow_cases acc row with he | ⟨_, _, _, h3, _⟩
    · exact he
    · rw [h] at h3
      simp at h3

/-- Witness for C7 on a one-row table. -/
theorem load_project_mapping_contract_witness :
    load_project_mapping [[], [" 1 ".data, "x".data, " nm ".data]] =
      some [("nm".data, "1".data)] ∧
    (∀ p ∈ ([("nm".data, "1".data)] : List (List Char × List Char)),
      p.1 ≠ [] ∧ p.2 ≠ []) ∧
    (([("nm".data, "1".data)] : List (List Char × List Char)).map Prod.fst).Nodup :=
  ⟨by decide,
   (load_project_mapping_contract [[], [" 1 ".data, "x".data, " nm ".data]]
     [("nm".data, "1".data)] (by decide)).1,
   (load_project_mapping_contract [[], [" 1 ".data, "x".data, " nm ".data]]
     [("nm".data, "1".data)] (by decide)).2.1⟩

/-! ## C10: loader strips whitespace -/

/-- C10: identifier (column 0) and name (column 2) are whitespace-stripped
before the emptiness check and insertion, so every stored key and value is
strip-invariant, and a row whose identifier or name is all whitespace is
skipped. -/
theorem load_project_mapping_trims (rows : List (List (List Char)))
    (m : List (List Char × List Char)) (hm : load_project_mapping rows = some m) :
    (∀ p ∈ m, pyStrip p.1 = p.1 ∧ pyStrip p.2 = p.2) ∧
    (∀ acc row, (∀ c ∈ row.getD 0 [], isSpaceCh c = true) ∨
      (∀ c ∈ row.getD 2 [], isSpaceCh c = true) → insertRow acc row = acc) := by
  constructor
  · cases rows with
    | nil => simp [load_project_mapping] at hm
    | cons header body =>
      simp only [load_project_mapping, Option.some.injEq] at hm
      subst hm
      refine loadRows_inv (fun acc => ∀ p ∈ acc, pyStrip p.1 = p.1 ∧ pyStrip p.2 = p.2)
        ?_ body [] (by simp)
      intro acc row hP
      rcases insertRow_cases acc row with he | ⟨_, _, _, _, he⟩
      · rw [he]
        exact hP
      · rw [he]
        intro p hp
        rcases List.mem_append.mp hp with hp | hp
        · exact hP p hp
        · rw [List.mem_singleton] at hp
          subst hp
          exact ⟨pyStrip_stable _, pyStrip_stable _⟩
  · intro acc row h
    rcases insertRow_cases acc row with he | ⟨_, h1, h2, _, _⟩
    · exact he
    · rcases h with h | h
      · rw [pyStrip_all_space _ h] at h1
        simp at h1
      · rw [pyStrip_all_space _ h] at h2
        simp at h2

/-- Witness for C10 on a one-row table with padded fields. -/
theorem load_project_mapping_trims_witness :
    load_project_mapping [[], [" 1 ".data, "x".data, " nm ".data]] =
      some [("nm".data, "1".data)] ∧
    (∀ p ∈ ([("nm".data, "1".data)] : List (List Char × List Char)),
      pyStrip p.1 = p.1 ∧ pyStrip p.2 = p.2) :=
  ⟨by decide,
   (load_project_mapping_trims [[], [" 1 ".data, "x".data, " nm ".data]]
     [("nm".data, "1".data)] (by decide)).1⟩
